import Mathlib

/-!
Shallow embedding of the clockify-report-app aggregation pipeline
(src/app.py and src/csv_monthly_projects.py).

Strings are modelled at the level of their character lists (Python
operates on sequences of code points); numbers are modelled as
rationals, so Python float arithmetic on the small decimal values used
here is exact.  Python round(x, 2) is modelled as rounding 100*x to the
nearest integer.
-/

attribute [local semireducible] Rat.add Rat.mul Rat.inv Rat.sub Rat.ofScientific

namespace Clockify

/-! ### Character-level helpers for the Python string operations -/

/-- Replace every comma by a dot, as in `s.replace(',', '.')`. -/
def commaToDot (c : Char) : Char := if c = ',' then '.' else c

/-- Python str.strip(): drop whitespace from both ends. -/
def trimList (l : List Char) : List Char :=
  ((l.dropWhile Char.isWhitespace).reverse.dropWhile Char.isWhitespace).reverse

/-- Numeric value of a decimal digit character. -/
def digitVal (c : Char) : Nat := c.toNat - '0'.toNat

/-- Value of a digit string, `int(p)` on a string of digits (0 when empty). -/
def natOfDigits (l : List Char) : Nat := l.foldl (fun a c => a * 10 + digitVal c) 0

/-- Keep only digit characters: models `re.sub(r'[^\d]', '', p)`. -/
def digitsOnly (l : List Char) : List Char := l.filter Char.isDigit

/-- Python str.split semantics on a character predicate: always returns at
least one (possibly empty) segment, one more segment per separator. -/
def splitOnPred (p : Char → Bool) : List Char → List (List Char)
  | [] => [[]]
  | c :: rest =>
    match splitOnPred p rest with
    | [] => [[]]
    | h :: t => if p c then [] :: h :: t else (c :: h) :: t

/-- Tests whether the first list starts the second one. -/
def isPref : List Char → List Char → Bool
  | [], _ => true
  | _ :: _, [] => false
  | a :: as, b :: bs => a = b && isPref as bs

/-- Python substring test `pat in hay`. -/
def containsSub (pat : List Char) : List Char → Bool
  | [] => pat.isEmpty
  | c :: t => isPref pat (c :: t) || containsSub pat t

/-- Code-point lexicographic strict order on character lists, the order
Python uses to compare strings. -/
def charListLt : List Char → List Char → Bool
  | [], [] => false
  | [], _ :: _ => true
  | _ :: _, [] => false
  | a :: as, b :: bs => if a = b then charListLt as bs else decide (a < b)

/-- Python string comparison `a < b`. -/
def strLtB (a b : String) : Bool := charListLt a.toList b.toList

/-- Lowercase a string character-wise, `s.lower()` (ASCII letters). -/
def lowerStr (s : String) : String := ⟨s.toList.map Char.toLower⟩

/-- Python `s.endswith(suf)`. -/
def strEndsWith (suf s : String) : Bool := isPref suf.toList.reverse s.toList.reverse

/-! ### Duration Parser (`parse_duration_value` in both source files) -/

/-- Test for the regex `[+-]?\d+(\.\d+)?` without the optional sign. -/
def isDecimalBody (l : List Char) : Bool :=
  let ip := l.takeWhile Char.isDigit
  let rest := l.dropWhile Char.isDigit
  !ip.isEmpty &&
    (rest.isEmpty ||
      (match rest with
       | '.' :: f => !f.isEmpty && f.all Char.isDigit
       | _ => false))

/-- Full match of the regex `[+-]?\d+(\.\d+)?`. -/
def isDecimalLit : List Char → Bool
  | '+' :: r => isDecimalBody r
  | '-' :: r => isDecimalBody r
  | l => isDecimalBody l

/-- Value of an unsigned decimal literal, `float(s)`. -/
def decimalBodyVal (l : List Char) : ℚ :=
  let ip := l.takeWhile Char.isDigit
  let rest := l.dropWhile Char.isDigit
  let f := match rest with | '.' :: f => f | _ => []
  (natOfDigits ip : ℚ) + (natOfDigits f : ℚ) / ((10 : ℚ) ^ f.length)

/-- Value of an optionally signed decimal literal. -/
def decimalVal : List Char → ℚ
  | '+' :: r => decimalBodyVal r
  | '-' :: r => - decimalBodyVal r
  | l => decimalBodyVal l

/-- One raw CSV cell: missing/NaN, a number, or a string.  This is the
cell domain of the data model (string | number | empty). -/
inductive Value where
  | none
  | num (q : ℚ)
  | str (s : String)
deriving DecidableEq

/-- Turn the list of `[hours, minutes]` or `[hours, minutes, seconds]`
numbers into decimal hours, exactly as the unpacking in the source does;
any other shape raised in Python and was swallowed to 0. -/
def hmsOfNums : List Nat → ℚ
  | [h, m] => (h : ℚ) + (m : ℚ) / 60
  | [h, m, s] => (h : ℚ) + (m : ℚ) / 60 + (s : ℚ) / 3600
  | _ => 0

/-- The cleaned form of a string input: `str(v).strip().replace(',', '.')`. -/
def cleanStr (s : String) : List Char := (trimList s.toList).map commaToDot

/-- parse_duration_value: missing goes to 0, numbers cast directly, a
decimal-literal string parses as a float, a string containing a colon is
read as `hh:mm[:ss]` from its first three segments with non-digits
stripped, anything else gives 0. -/
def parse_duration_value (v : Value) : ℚ :=
  match v with
  | .none => 0
  | .num q => q
  | .str s =>
    let l := cleanStr s
    if isDecimalLit l then decimalVal l
    else if l.contains ':' then
      hmsOfNums (((splitOnPred (fun c => c = ':') l).take 3).map
        (fun p => natOfDigits (digitsOnly (trimList p))))
    else 0

/-! ### Month Label Orderer (`month_sort_key`) -/

/-- Full English month names table from the sources. -/
def MONTH_MAP : List (String × Nat) :=
  [("january", 1), ("february", 2), ("march", 3), ("april", 4), ("may", 5), ("june", 6),
   ("july", 7), ("august", 8), ("september", 9), ("october", 10), ("november", 11),
   ("december", 12)]

/-- Full match of `(\d{4})[-_](\d{2})$` anchored on both sides, returning
the year and month numbers. -/
def yyyymmMatch : List Char → Option (Nat × Nat)
  | [a, b, c, d, s, e, f] =>
    if (a.isDigit && b.isDigit && c.isDigit && d.isDigit) && (s = '-' || s = '_') &&
        (e.isDigit && f.isDigit) then
      some (natOfDigits [a, b, c, d], natOfDigits [e, f])
    else Option.none
  | _ => Option.none

/-- Separator class of `re.split(r'[_\-\s]', ...)`. -/
def isTokenSep (c : Char) : Bool := c = '_' || c = '-' || c.isWhitespace

/-- Tokenize a label on underscore, hyphen and whitespace. -/
def monthTokens (l : List Char) : List String :=
  (splitOnPred isTokenSep l).map (fun t => ⟨t⟩)

/-- First token that is a full month name, giving its number. -/
def firstMonthNum (toks : List String) : Option Nat :=
  toks.findSome? (fun t => List.lookup t MONTH_MAP)

/-- First token that fully matches `\d{4}`, as a number. -/
def firstYearTok (toks : List String) : Option Nat :=
  toks.findSome? (fun t =>
    if t.toList.length = 4 && t.toList.all Char.isDigit then some (natOfDigits t.toList)
    else Option.none)

/-- month_sort_key from the sources.  Note the year-missing branch
returns `2000 + month`, and a year token `0000` is falsy in Python so it
takes the same branch. -/
def month_sort_key (name : String) : Nat × String :=
  if name = "" then (9999, name)
  else
    let t := trimList name.toList
    match yyyymmMatch t with
    | some (y, mo) => (y * 100 + mo, ⟨t⟩)
    | Option.none =>
      let toks := monthTokens (t.map Char.toLower)
      match firstMonthNum toks with
      | some mnum =>
        match firstYearTok toks with
        | some y => if y ≠ 0 then (y * 100 + mnum, ⟨t⟩) else (2000 + mnum, ⟨t⟩)
        | Option.none => (2000 + mnum, ⟨t⟩)
      | Option.none => (9999, ⟨t⟩)

/-- Strict order on sort keys: Python tuple comparison (Nat, then the
tie-breaking label string). -/
def keyLt (p q : Nat × String) : Bool :=
  decide (p.1 < q.1) || (decide (p.1 = q.1) && charListLt p.2.toList q.2.toList)

/-! ### Column Sniffer (`normalize_col`, `find_duration_column`, and the
inline description-column loop) -/

/-- normalize_col: strip, lowercase, remove whitespace, parentheses,
hyphens and periods. -/
def normalize_col (c : String) : String :=
  ⟨((trimList c.toList).map Char.toLower).filter
    (fun ch => !(ch.isWhitespace || ch = '(' || ch = ')' || ch = '-' || ch = '.'))⟩

/-- Python dict insertion: overwrite the value in place when the key
exists, otherwise append at the end. -/
def dictInsert {β : Type} : List (String × β) → String → β → List (String × β)
  | [], k, v => [(k, v)]
  | (k', v') :: rest, k, v =>
    if k' = k then (k, v) :: rest else (k', v') :: dictInsert rest k v

/-- The dict `{normalize_col(c): c for c in cols}`. -/
def durNormMap (cols : List String) : List (String × String) :=
  cols.foldl (fun d c => dictInsert d (normalize_col c) c) []

/-- Substring test of the duration fallback: normalized name contains
duration, time or hours. -/
def durContains (n : String) : Bool :=
  containsSub "duration".toList n.toList || containsSub "time".toList n.toList ||
    containsSub "hours".toList n.toList

/-- find_duration_column: exact-match priority list, then the first entry
of the normalized-name dict whose key contains a duration-like word. -/
def find_duration_column (cols : List String) : Option String :=
  let d := durNormMap cols
  match List.lookup "durationdecimal" d with
  | some o => some o
  | Option.none =>
    match List.lookup "durationh" d with
    | some o => some o
    | Option.none =>
      match List.lookup "duration" d with
      | some o => some o
      | Option.none =>
        d.findSome? (fun p => if durContains p.1 then some p.2 else Option.none)

/-- Test of the description-column loop body. -/
def descMatches (c : String) : Bool :=
  let n := normalize_col c
  containsSub "description".toList n.toList || containsSub "details".toList n.toList ||
    containsSub "note".toList n.toList

/-- The inline loop over df.columns choosing the first description-like
column. -/
def find_desc_column (cols : List String) : Option String :=
  cols.find? descMatches

/-! ### Project Folder Aggregator (`process_project_folder`) -/

/-- Floor of a rational, written on the raw fields so that it evaluates
by kernel reduction. -/
def ratFloor (q : ℚ) : ℤ := q.num.fdiv q.den

/-- Python round(x, 2), modelled as rounding 100*x to the nearest
integer (ties, which never arise exactly in the values below, round
up). -/
def round2 (x : ℚ) : ℚ := ((ratFloor (x * 100 + 1 / 2) : ℤ) : ℚ) / 100

/-- A parsed CSV file: header row and data rows (pandas DataFrame). -/
structure Csv where
  headers : List String
  rows : List (List Value)
deriving DecidableEq

/-- Cell of a row under a column name, `row[col]`; a pandas row always
carries every header, absent positions read as NaN. -/
def getCell (headers : List String) (row : List Value) (col : String) : Value :=
  match headers.findIdx? (· = col) with
  | some i => row.getD i Value.none
  | Option.none => Value.none

/-- One month worth of data: rounded total and the retained
(description, hours) entries. -/
structure MonthRecord where
  total : ℚ
  entries : List (Value × ℚ)
deriving DecidableEq

/-- Description cell of a row: the description column's cell when one was
found, otherwise the empty string. -/
def descOf (df : Csv) (row : List Value) : Value :=
  match find_desc_column df.headers with
  | some c => getCell df.headers row c
  | Option.none => Value.str ""

/-- Per-file body of process_project_folder: skip empty frames and frames
without a duration column; otherwise sum the parsed durations of all rows
into the rounded total, and append an entry for each row whose parsed
value is positive. -/
def processCsv (df : Csv) : Option MonthRecord :=
  if df.rows.length = 0 then Option.none
  else
    match find_duration_column df.headers with
    | Option.none => Option.none
    | some dcol =>
      let total := round2 (df.rows.foldl
        (fun a r => a + parse_duration_value (getCell df.headers r dcol)) 0)
      let entries := df.rows.foldl (fun acc r =>
        if 0 < parse_duration_value (getCell df.headers r dcol) then
          acc ++ [(descOf df r, parse_duration_value (getCell df.headers r dcol))]
        else acc) []
      some ⟨total, entries⟩

/-- Result of attempting to read one file with the two encodings the code
may try: pd.read_csv(path) and pd.read_csv(path, encoding='latin1').
A `none` component means that read raises. -/
structure FileData where
  readDefault : Option Csv
  readLatin : Option Csv
deriving DecidableEq

/-- app.py read: try the default encoding, on failure retry latin1. -/
def appRead (fd : FileData) : Option Csv :=
  match fd.readDefault with
  | some c => some c
  | Option.none => fd.readLatin

/-- csv_monthly_projects.py read: the default encoding only. -/
def cliRead (fd : FileData) : Option Csv := fd.readDefault

/-- Case-insensitive `.csv` suffix test, `fname.lower().endswith('.csv')`. -/
def endsWithCsv (fname : String) : Bool := strEndsWith ".csv" (lowerStr fname)

/-- os.path.splitext stem: cut at the last dot, except when every
character before it is itself a dot. -/
def splitextStem (fname : String) : String :=
  let l := fname.toList
  match l.reverse.findIdx? (· = '.') with
  | Option.none => fname
  | some j =>
    let i := l.length - 1 - j
    if (l.take i).all (· = '.') then fname else ⟨l.take i⟩

/-- Insertion into a sorted list, placing x before the first element y
with le x y; with le a b = not (b < a) this reproduces a stable
ascending sort. -/
def insertBy {α : Type} (le : α → α → Bool) (x : α) : List α → List α
  | [] => [x]
  | y :: ys => if le x y then x :: y :: ys else y :: insertBy le x ys

/-- Stable insertion sort, modelling Python sorted(). -/
def isortBy {α : Type} (le : α → α → Bool) : List α → List α
  | [] => []
  | x :: xs => insertBy le x (isortBy le xs)

/-- Filename order used by sorted(os.listdir(path)) on (name, file)
pairs. -/
def fileLeB (a b : String × FileData) : Bool := !(strLtB b.1 a.1)

/-- One step of the folder loop for the app.py variant: non-CSV names and
files that fail both reads or yield no record are skipped; a produced
record is stored in the dict under the filename stem. -/
def folderStep (acc : List (String × MonthRecord)) (f : String × FileData) :
    List (String × MonthRecord) :=
  if endsWithCsv f.1 then
    match appRead f.2 with
    | Option.none => acc
    | some df =>
      match processCsv df with
      | Option.none => acc
      | some r => dictInsert acc (splitextStem f.1) r
  else acc

/-- process_project_folder (app.py): iterate the directory listing in
sorted order, accumulating the month dict. -/
def process_project_folder (files : List (String × FileData)) :
    List (String × MonthRecord) :=
  (isortBy fileLeB files).foldl folderStep []

/-- One step of the folder loop for the standalone script, which reads
with the default encoding only. -/
def folderStepCli (acc : List (String × MonthRecord)) (f : String × FileData) :
    List (String × MonthRecord) :=
  if endsWithCsv f.1 then
    match cliRead f.2 with
    | Option.none => acc
    | some df =>
      match processCsv df with
      | Option.none => acc
      | some r => dictInsert acc (splitextStem f.1) r
  else acc

/-- process_project_folder (csv_monthly_projects.py). -/
def process_project_folder_cli (files : List (String × FileData)) :
    List (String × MonthRecord) :=
  (isortBy fileLeB files).foldl folderStepCli []

/-! ### Workbook Builder (`generate_workbook_bytes` / `main`) -/

/-- Label order of sorted(month_totals.keys(), key=month_sort_key). -/
def labelLeB (a b : String) : Bool := !(keyLt (month_sort_key b) (month_sort_key a))

/-- The same order lifted to dict items; month labels are dict keys and
hence distinct, so sorting the items by label agrees with sorting the
keys and indexing back into the dict. -/
def monthLeB (a b : String × MonthRecord) : Bool := labelLeB a.1 b.1

/-- Months of a project in the emission order of the sheet loop. -/
def sortMonths (months : List (String × MonthRecord)) : List (String × MonthRecord) :=
  isortBy monthLeB months

/-- Rows appended for one month: total row, sub-header, one row per
retained entry, and a blank separator row. -/
def monthBlock (p : String × MonthRecord) : List (List Value) :=
  [Value.str p.1, Value.num p.2.total] :: [Value.str "Description", Value.str "Hours"] ::
    (p.2.entries.map (fun e => [e.1, Value.num e.2]) ++ [[]])

/-- Project grand total: round(sum(m['total'] for m in values), 2). -/
def grandTotal (months : List (String × MonthRecord)) : ℚ :=
  round2 (months.foldl (fun a p => a + p.2.total) 0)

/-- All rows of one project sheet: header, the month blocks in sorted
label order, a blank row, and the TOTAL row. -/
def buildSheetRows (months : List (String × MonthRecord)) : List (List Value) :=
  [Value.str "Month", Value.str "Total Hours"] ::
    ((sortMonths months).foldr (fun p acc => monthBlock p ++ acc) [] ++
      [[], [Value.str "TOTAL", Value.num (grandTotal months)]])

/-- One sheet of the output workbook. -/
structure Sheet where
  title : String
  rows : List (List Value)
deriving DecidableEq

/-- A directory entry of the root folder: a plain file, or a project
directory with its (filename, file) listing. -/
inductive RootEntry where
  | file
  | dir (files : List (String × FileData))
deriving DecidableEq

/-- Skip rule of the root walk: venv, __pycache__ (case-insensitively)
and dot-names. -/
def skipName (name : String) : Bool :=
  lowerStr name = "venv" || lowerStr name = "__pycache__" ||
    (match name.toList with | '.' :: _ => true | _ => false)

/-- Python slicing s[:n] by code points (sheet titles are cut to 31). -/
def takeStr (n : Nat) (s : String) : String := ⟨s.toList.take n⟩

/-- Name order of sorted(os.listdir(root)) on root entries. -/
def rootLeB (a b : String × RootEntry) : Bool := !(strLtB b.1 a.1)

/-- Accumulator of the root walk: project sheets created so far, the
summary list, and the added counter. -/
structure BuildState where
  sheets : List Sheet
  summaries : List (String × ℚ)
  added : Nat
deriving DecidableEq

/-- One iteration of the root loop: non-directories and skip-named
directories contribute nothing; a project with no month records is
skipped; otherwise one sheet is created, the summary appended, and the
counter bumped. -/
def rootStep (st : BuildState) (item : String × RootEntry) : BuildState :=
  match item.2 with
  | RootEntry.file => st
  | RootEntry.dir files =>
    if skipName item.1 then st
    else
      let mt := process_project_folder files
      if mt.isEmpty then st
      else
        ⟨st.sheets ++ [⟨takeStr 31 item.1, buildSheetRows mt⟩],
         st.summaries ++ [(item.1, grandTotal mt)], st.added + 1⟩

/-- The state after walking the whole root. -/
def buildFold (root : List (String × RootEntry)) : BuildState :=
  (isortBy rootLeB root).foldl rootStep ⟨[], [], 0⟩

/-- Workbook model: final sheet list (after the default-sheet fixup) and
the summary list. -/
structure WorkbookResult where
  sheets : List Sheet
  summaries : List (String × ℚ)
deriving DecidableEq

/-- generate_workbook_bytes without the serialization: when at least one
sheet was added the default sheet is removed, otherwise the default
(empty) sheet is retitled NoData. -/
def generate_workbook (root : List (String × RootEntry)) : WorkbookResult :=
  let st := buildFold root
  if 0 < st.added then ⟨st.sheets, st.summaries⟩
  else ⟨[⟨"NoData", []⟩], st.summaries⟩

/-! ### Spec-side formulations, written from the claim wording, for
comparison with the source-derived functions above -/

/-- Value a colon-bearing string is claimed to parse to: hours plus
minutes over 60 plus seconds over 3600, computed from at most the first
three colon-separated segments of the string itself after stripping
non-digit characters, empty segments counting as 0. -/
def specColonValue (s : String) : ℚ :=
  hmsOfNums (((splitOnPred (fun c => c = ':') s.toList).take 3).map
    (fun p => natOfDigits (digitsOnly p)))

/-- Duration sniffer as the claim words it: exact normalized match in
priority order, then the first column in original column order whose
normalized name contains a duration-like word. -/
def specFindDuration (cols : List String) : Option String :=
  match cols.find? (fun c => normalize_col c = "durationdecimal") with
  | some c => some c
  | Option.none =>
    match cols.find? (fun c => normalize_col c = "durationh") with
    | some c => some c
    | Option.none =>
      match cols.find? (fun c => normalize_col c = "duration") with
      | some c => some c
      | Option.none =>
        cols.findSome? (fun c => if durContains (normalize_col c) then some c else Option.none)

/-- A string input on which every branch of the parser falls through:
not a decimal literal and without a colon after cleaning. -/
def unparseableStr (s : String) : Bool :=
  !isDecimalLit (cleanStr s) && !(cleanStr s).contains ':'

/-! ### General lemmas about the folds and sorts used above -/

theorem foldl_add_map {α : Type} (f : α → ℚ) (l : List α) :
    ∀ a : ℚ, l.foldl (fun x r => x + f r) a = a + (l.map f).sum := by
  induction l with
  | nil => intro a; simp
  | cons r t ih => intro a; simp [ih, add_assoc]

theorem foldl_append_filterMap {α β : Type} (p : α → Prop) [DecidablePred p] (g : α → β)
    (l : List α) : ∀ acc : List β,
    l.foldl (fun a r => if p r then a ++ [g r] else a) acc =
      acc ++ l.filterMap (fun r => if p r then some (g r) else Option.none) := by
  induction l with
  | nil => intro acc; simp
  | cons r t ih =>
    intro acc
    by_cases h : p r <;> simp [h, ih, List.filterMap_cons]

theorem foldl_insertBy_skip {α β : Type} (le : α → α → Bool) (step : β → α → β) (bad : α)
    (hbad : ∀ acc, step acc bad = acc) (l : List α) :
    ∀ acc : β, (insertBy le bad l).foldl step acc = l.foldl step acc := by
  induction l with
  | nil => intro acc; simp [insertBy, hbad]
  | cons y ys ih =>
    intro acc
    by_cases h : le bad y = true
    · simp [insertBy, h, hbad]
    · simp [insertBy, h, ih]

theorem mem_insertBy {α : Type} (le : α → α → Bool) (x a : α) (l : List α) :
    a ∈ insertBy le x l ↔ a = x ∨ a ∈ l := by
  induction l with
  | nil => simp [insertBy]
  | cons y ys ih =>
    by_cases h : le x y = true
    · simp [insertBy, h]
    · simp only [insertBy, h, Bool.false_eq_true, if_false, List.mem_cons, ih]
      tauto

theorem perm_insertBy {α : Type} (le : α → α → Bool) (x : α) (l : List α) :
    (insertBy le x l).Perm (x :: l) := by
  induction l with
  | nil => simp [insertBy]
  | cons y ys ih =>
    by_cases h : le x y = true
    · simp [insertBy, h]
    · simp only [insertBy, h, Bool.false_eq_true, if_false]
      exact (ih.cons y).trans (List.Perm.swap x y ys)

theorem perm_isortBy {α : Type} (le : α → α → Bool) (l : List α) : (isortBy le l).Perm l := by
  induction l with
  | nil => simp [isortBy]
  | cons x xs ih => exact (perm_insertBy le x (isortBy le xs)).trans (ih.cons x)

theorem pairwise_insertBy {α : Type} (le : α → α → Bool)
    (htot : ∀ a b, le a b = true ∨ le b a = true)
    (htr : ∀ a b c, le a b = true → le b c = true → le a c = true)
    (x : α) (l : List α) (hp : l.Pairwise (fun a b => le a b = true)) :
    (insertBy le x l).Pairwise (fun a b => le a b = true) := by
  induction l with
  | nil => simp [insertBy]
  | cons y ys ih =>
    rw [List.pairwise_cons] at hp
    obtain ⟨hy, hys⟩ := hp
    by_cases h : le x y = true
    · simp only [insertBy, h, if_true, List.pairwise_cons]
      refine ⟨?_, ?_⟩
      · intro z hz
        rcases List.mem_cons.mp hz with rfl | hz2
        · exact h
        · exact htr x y z h (hy z hz2)
      · exact ⟨hy, hys⟩
    · simp only [insertBy, h, Bool.false_eq_true, if_false, List.pairwise_cons]
      refine ⟨?_, ih hys⟩
      intro z hz
      rcases (mem_insertBy le x z ys).mp hz with rfl | hz2
      · rcases htot z y with hxy | hyx
        · exact absurd hxy h
        · exact hyx
      · exact hy z hz2

theorem pairwise_isortBy {α : Type} (le : α → α → Bool)
    (htot : ∀ a b, le a b = true ∨ le b a = true)
    (htr : ∀ a b c, le a b = true → le b c = true → le a c = true)
    (l : List α) : (isortBy le l).Pairwise (fun a b => le a b = true) := by
  induction l with
  | nil => simp [isortBy]
  | cons x xs ih => exact pairwise_insertBy le htot htr x _ ih

/-! ### The label order is a linear order on sort keys -/

theorem charListLt_irrefl (l : List Char) : charListLt l l = false := by
  induction l with
  | nil => rfl
  | cons a as ih => simp [charListLt, ih]

theorem charListLt_asymm : ∀ a b : List Char,
    charListLt a b = true → charListLt b a = false
  | [], [] => by simp [charListLt]
  | [], _ :: _ => by simp [charListLt]
  | _ :: _, [] => by simp [charListLt]
  | a :: as, b :: bs => by
    by_cases hab : a = b
    · subst hab
      simp only [charListLt, eq_self_iff_true, if_true]
      exact charListLt_asymm as bs
    · have hba : ¬ b = a := fun h => hab h.symm
      simp only [charListLt, if_neg hab, if_neg hba, decide_eq_true_eq,
        decide_eq_false_iff_not]
      exact fun h => lt_asymm h

theorem charListLt_trans : ∀ a b c : List Char,
    charListLt a b = true → charListLt b c = true → charListLt a c = true
  | [], [], _ => by simp [charListLt]
  | [], _ :: _, [] => by simp [charListLt]
  | [], _ :: _, _ :: _ => by simp [charListLt]
  | _ :: _, [], _ => by simp [charListLt]
  | _ :: _, _ :: _, [] => by intro _ h2; simp [charListLt] at h2
  | a :: as, b :: bs, c :: cs => by
    by_cases hab : a = b <;> by_cases hbc : b = c
    · subst hab; subst hbc
      simp only [charListLt, eq_self_iff_true, if_true]
      exact charListLt_trans as bs cs
    · subst hab
      simp only [charListLt, eq_self_iff_true, if_true, if_neg hbc]
      exact fun _ h2 => h2
    · subst hbc
      simp only [charListLt, eq_self_iff_true, if_true, if_neg hab]
      exact fun h1 _ => h1
    · simp only [charListLt, if_neg hab, if_neg hbc, decide_eq_true_eq]
      intro h1 h2
      have hac : ¬ a = c := ne_of_lt (lt_trans h1 h2)
      simp only [if_neg hac, decide_eq_true_eq]
      exact lt_trans h1 h2

theorem charListLt_connex : ∀ a b : List Char,
    charListLt a b = false → charListLt b a = false → a = b
  | [], [] => by simp
  | [], _ :: _ => by simp [charListLt]
  | _ :: _, [] => by intro _ h2; simp [charListLt] at h2
  | a :: as, b :: bs => by
    by_cases hab : a = b
    · subst hab
      simp only [charListLt, eq_self_iff_true, if_true]
      intro h1 h2
      rw [charListLt_connex as bs h1 h2]
    · have hba : ¬ b = a := fun h => hab h.symm
      simp only [charListLt, if_neg hab, if_neg hba, decide_eq_false_iff_not]
      intro h1 h2
      exact absurd (le_antisymm (not_lt.mp h2) (not_lt.mp h1)) hab

theorem keyLt_iff (p q : Nat × String) :
    keyLt p q = true ↔
      p.1 < q.1 ∨ (p.1 = q.1 ∧ charListLt p.2.toList q.2.toList = true) := by
  simp [keyLt, Bool.or_eq_true, Bool.and_eq_true, decide_eq_true_eq]

theorem keyLt_asymm (p q : Nat × String) (h : keyLt p q = true) : keyLt q p = false := by
  rw [keyLt_iff] at h
  rw [Bool.eq_false_iff]
  intro h2
  rw [keyLt_iff] at h2
  rcases h with h | ⟨he, hc⟩ <;> rcases h2 with h2 | ⟨he2, hc2⟩
  · omega
  · omega
  · omega
  · have h3 := charListLt_asymm _ _ hc
    simp only [String.toList] at h3
    simp [h3] at hc2

theorem keyLt_trans (p q r : Nat × String) (h1 : keyLt p q = true) (h2 : keyLt q r = true) :
    keyLt p r = true := by
  rw [keyLt_iff] at h1 h2 ⊢
  rcases h1 with h1 | ⟨e1, c1⟩ <;> rcases h2 with h2 | ⟨e2, c2⟩
  · left; omega
  · left; omega
  · left; omega
  · right; exact ⟨e1.trans e2, charListLt_trans _ _ _ c1 c2⟩

theorem keyLt_connex (p q : Nat × String) (h1 : keyLt p q = false) (h2 : keyLt q p = false) :
    p = q := by
  have n1 : ¬ (p.1 < q.1 ∨ (p.1 = q.1 ∧ charListLt p.2.toList q.2.toList = true)) := by
    rw [← keyLt_iff, h1]; simp
  have n2 : ¬ (q.1 < p.1 ∨ (q.1 = p.1 ∧ charListLt q.2.toList p.2.toList = true)) := by
    rw [← keyLt_iff, h2]; simp
  push_neg at n1 n2
  have he : p.1 = q.1 := by omega
  have hc : p.2.toList = q.2.toList := by
    refine charListLt_connex _ _ ?_ ?_
    · have := n1.2 he
      simp only [Bool.not_eq_true] at this
      exact this
    · have := n2.2 he.symm
      simp only [Bool.not_eq_true] at this
      exact this
  have hs : p.2 = q.2 := String.toList_inj.mp hc
  exact Prod.ext he hs

theorem labelLeB_total (a b : String) : labelLeB a b = true ∨ labelLeB b a = true := by
  simp only [labelLeB, Bool.not_eq_true']
  by_cases h : keyLt (month_sort_key b) (month_sort_key a) = true
  · right
    exact keyLt_asymm _ _ h
  · left
    simpa using h

theorem labelLeB_trans (a b c : String) (h1 : labelLeB a b = true) (h2 : labelLeB b c = true) :
    labelLeB a c = true := by
  simp only [labelLeB, Bool.not_eq_true'] at h1 h2 ⊢
  by_contra hca
  rw [Bool.not_eq_false] at hca
  by_cases hbc : keyLt (month_sort_key b) (month_sort_key c) = true
  · have := keyLt_trans _ _ _ hbc hca
    rw [this] at h1
    exact absurd h1 (by simp)
  · have hbc2 : keyLt (month_sort_key b) (month_sort_key c) = false := by simpa using hbc
    have heq := keyLt_connex _ _ hbc2 h2
    rw [← heq] at hca
    rw [hca] at h1
    exact absurd h1 (by simp)

/-! ### Invariant of the root walk: one sheet and one summary per added
project -/

theorem buildfold_lens (items : List (String × RootEntry)) :
    ∀ st : BuildState,
      (items.foldl rootStep st).sheets.length + st.added =
          (items.foldl rootStep st).added + st.sheets.length ∧
        (items.foldl rootStep st).summaries.length + st.added =
          (items.foldl rootStep st).added + st.summaries.length := by
  induction items with
  | nil => intro st; simp only [List.foldl_nil]; omega
  | cons it ts ih =>
    intro st
    have h := ih (rootStep st it)
    have hstep : ((rootStep st it).sheets.length = st.sheets.length ∧
        (rootStep st it).summaries.length = st.summaries.length ∧
        (rootStep st it).added = st.added) ∨
        ((rootStep st it).sheets.length = st.sheets.length + 1 ∧
        (rootStep st it).summaries.length = st.summaries.length + 1 ∧
        (rootStep st it).added = st.added + 1) := by
      rcases it with ⟨name, entry⟩
      cases entry with
      | file => left; simp [rootStep]
      | dir files =>
        by_cases hskip : skipName name = true
        · left; simp [rootStep, hskip]
        · by_cases hmt : (process_project_folder files).isEmpty = true
          · left; simp [rootStep, hskip, hmt]
          · right; simp [rootStep, hskip, hmt]
    rw [List.foldl_cons]
    obtain ⟨h1, h2⟩ := h
    rcases hstep with ⟨e1, e2, e3⟩ | ⟨e1, e2, e3⟩ <;> constructor <;> omega

theorem buildFold_counts (root : List (String × RootEntry)) :
    (buildFold root).sheets.length = (buildFold root).added ∧
      (buildFold root).summaries.length = (buildFold root).added := by
  obtain ⟨h1, h2⟩ := buildfold_lens (isortBy rootLeB root) ⟨[], [], 0⟩
  simp only [List.length_nil] at h1 h2
  unfold buildFold
  constructor <;> omega

/-! ### Claim theorems -/

/-- C4 counterexample: for the year-less label "January" the code returns
the key (2000 + 1, "January"), not the key (2000 * 100 + 1, "January")
that the claim states. -/
theorem c4_counterexample :
    month_sort_key "January" = (2000 + 1, "January") ∧
      ¬ month_sort_key "January" = (2000 * 100 + 1, "January") := by
  decide

/-- C4 (amended): for every month label containing a full English month
name token but no 4-digit year token (and not of the YYYY-MM shape, and
nonempty), the Month Label Orderer returns the sort key
(2000 + monthNumber, strippedLabel): the code adds the month number to
2000 itself, not to 2000 * 100. -/
theorem c4_amended (name : String) (mnum : Nat)
    (h0 : ¬ name = "")
    (hyy : yyyymmMatch (trimList name.toList) = Option.none)
    (hm : firstMonthNum (monthTokens ((trimList name.toList).map Char.toLower)) = some mnum)
    (hy : firstYearTok (monthTokens ((trimList name.toList).map Char.toLower)) = Option.none) :
    month_sort_key name = (2000 + mnum, ⟨trimList name.toList⟩) := by
  simp only [month_sort_key, if_neg h0, hyy, hm, hy]

/-- C4 witness: the amended statement evaluated at the concrete label
"January". -/
theorem c4_witness : month_sort_key "January" = (2001, "January") :=
  c4_amended "January" 1 (by decide) (by decide) (by decide) (by decide)

/-- C6: the duration parser is a total function into the rationals; the
missing value parses to 0, and a string that is neither a decimal
literal nor colon-bearing after cleaning parses to 0. -/
theorem c6_parser_total (v : Value) :
    (∃ q : ℚ, parse_duration_value v = q) ∧
      (v = Value.none → parse_duration_value v = 0) ∧
      (∀ s, v = Value.str s → unparseableStr s = true → parse_duration_value v = 0) := by
  refine ⟨⟨parse_duration_value v, rfl⟩, ?_, ?_⟩
  · rintro rfl
    rfl
  · rintro s rfl h
    simp only [unparseableStr, Bool.and_eq_true, Bool.not_eq_true'] at h
    obtain ⟨h1, h2⟩ := h
    have n1 : ¬ (isDecimalLit (cleanStr s) = true) := by
      rw [h1]
      exact Bool.false_ne_true
    have n2 : ¬ ((cleanStr s).contains ':' = true) := by
      rw [h2]
      exact Bool.false_ne_true
    simp only [parse_duration_value]
    rw [if_neg n1, if_neg n2]

/-- C6 witness: the totality statement evaluated at the concrete
unparseable input "garbage". -/
theorem c6_witness : parse_duration_value (Value.str "garbage") = 0 :=
  (c6_parser_total (Value.str "garbage")).2.2 "garbage" rfl (by decide)

/-- C10: when two CSV files of one folder share a filename stem, the one
later in filename-sorted order wins: the folder dict ends with exactly
one record for that stem, the record of the later file, whichever order
the directory listing had. -/
theorem c10_last_file_wins (e1 e2 : String × FileData) (r1 r2 : MonthRecord)
    (hcsv1 : endsWithCsv e1.1 = true) (hcsv2 : endsWithCsv e2.1 = true)
    (hstem : splitextStem e1.1 = splitextStem e2.1)
    (hlt : strLtB e1.1 e2.1 = true)
    (h1 : (appRead e1.2).bind processCsv = some r1)
    (h2 : (appRead e2.2).bind processCsv = some r2) :
    process_project_folder [e1, e2] = [(splitextStem e2.1, r2)] ∧
      process_project_folder [e2, e1] = [(splitextStem e2.1, r2)] := by
  simp only [strLtB] at hlt
  have hasym : charListLt e2.1.toList e1.1.toList = false := charListLt_asymm _ _ hlt
  rcases happ1 : appRead e1.2 with _ | df1
  · rw [happ1] at h1; simp at h1
  rcases happ2 : appRead e2.2 with _ | df2
  · rw [happ2] at h2; simp at h2
  rw [happ1] at h1
  rw [happ2] at h2
  replace h1 : processCsv df1 = some r1 := h1
  replace h2 : processCsv df2 = some r2 := h2
  constructor
  · simp only [process_project_folder, isortBy, insertBy, fileLeB, strLtB, hasym,
      Bool.not_false, if_true, List.foldl]
    simp only [folderStep, hcsv1, hcsv2, happ1, happ2, h1, h2, if_true]
    simp [dictInsert, hstem]
  · simp only [process_project_folder, isortBy, insertBy, fileLeB, strLtB, hlt,
      Bool.not_true, Bool.false_eq_true, if_false, List.foldl]
    simp only [folderStep, hcsv1, hcsv2, happ1, happ2, h1, h2, if_true]
    simp [dictInsert, hstem]

/-- C10 witness: Jan.CSV sorts before Jan.csv, both produce a record,
and the record of Jan.csv (the later file) is the only survivor. -/
theorem c10_witness :
    process_project_folder
        [("Jan.CSV", ⟨some ⟨["Duration"], [[Value.str "1"]]⟩, Option.none⟩),
         ("Jan.csv", ⟨some ⟨["Duration"], [[Value.str "2"]]⟩, Option.none⟩)] =
      [("Jan", ⟨2, [(Value.str "", 2)]⟩)] :=
  (c10_last_file_wins
    ("Jan.CSV", ⟨some ⟨["Duration"], [[Value.str "1"]]⟩, Option.none⟩)
    ("Jan.csv", ⟨some ⟨["Duration"], [[Value.str "2"]]⟩, Option.none⟩)
    ⟨1, [(Value.str "", 1)]⟩ ⟨2, [(Value.str "", 2)]⟩
    (by decide) (by decide) (by decide) (by decide) (by decide) (by decide)).1

/-- C8: when no project produced a sheet the workbook is exactly one
sheet titled NoData with no rows and the summary list is empty; when at
least one was produced the default sheet is removed, leaving exactly the
project sheets. -/
theorem c8_nodata (root : List (String × RootEntry)) :
    ((buildFold root).added = 0 →
      generate_workbook root = ⟨[⟨"NoData", []⟩], []⟩) ∧
      (0 < (buildFold root).added →
        generate_workbook root = ⟨(buildFold root).sheets, (buildFold root).summaries⟩ ∧
          ¬ (buildFold root).sheets = []) := by
  obtain ⟨hsheet, hsum⟩ := buildFold_counts root
  have hg : generate_workbook root =
      if 0 < (buildFold root).added then
        ⟨(buildFold root).sheets, (buildFold root).summaries⟩
      else ⟨[⟨"NoData", []⟩], (buildFold root).summaries⟩ := rfl
  constructor
  · intro h0
    have e1 : (buildFold root).summaries = [] := by
      rw [← List.length_eq_zero]
      omega
    rw [hg, if_neg (by omega), e1]
  · intro hpos
    rw [hg, if_pos hpos]
    refine ⟨rfl, ?_⟩
    intro he
    rw [he] at hsheet
    simp at hsheet
    omega

/-- C8 witness: a root with only a dot-named directory, a venv directory
(even one holding a valid CSV) and a plain file produces the NoData
workbook with an empty summary list. -/
theorem c8_witness :
    generate_workbook
        [(".hidden", RootEntry.dir []),
         ("venv", RootEntry.dir [("Jan.csv", ⟨some ⟨["Duration"], [[Value.str "1"]]⟩,
           Option.none⟩)]),
         ("notes.txt", RootEntry.file)] =
      ⟨[⟨"NoData", []⟩], []⟩ :=
  (c8_nodata _).1 (by decide)

/-- C7 counterexample: a file readable only as Latin-1 is recovered by
the app.py aggregator but silently skipped by the standalone script,
which never retries with the fallback encoding the claim describes. -/
theorem c7_counterexample :
    process_project_folder_cli
        [("Jan.csv", ⟨Option.none, some ⟨["Duration"], [[Value.str "1"]]⟩⟩)] = [] ∧
      process_project_folder
          [("Jan.csv", ⟨Option.none, some ⟨["Duration"], [[Value.str "1"]]⟩⟩)] =
        [("Jan", ⟨1, [(Value.str "", 1)]⟩)] := by
  decide

/-- C7 (amended): in app.py a default-encoding failure falls back to the
Latin-1 read; in both variants a file whose read attempts all fail is
skipped alone, leaving the rest of the folder aggregation unchanged. -/
theorem c7_amended :
    (∀ (fd : FileData) (c : Csv), fd.readDefault = Option.none → fd.readLatin = some c →
      appRead fd = some c) ∧
      (∀ (files : List (String × FileData)) (bad : String × FileData),
        endsWithCsv bad.1 = true → appRead bad.2 = Option.none →
        process_project_folder (bad :: files) = process_project_folder files) ∧
      (∀ (files : List (String × FileData)) (bad : String × FileData),
        endsWithCsv bad.1 = true → cliRead bad.2 = Option.none →
        process_project_folder_cli (bad :: files) = process_project_folder_cli files) := by
  refine ⟨?_, ?_, ?_⟩
  · intro fd c h1 h2
    simp [appRead, h1, h2]
  · intro files bad hcsv hread
    have hbad : ∀ acc, folderStep acc bad = acc := by
      intro acc
      simp [folderStep, hcsv, hread]
    simp only [process_project_folder, isortBy]
    exact foldl_insertBy_skip fileLeB folderStep bad hbad (isortBy fileLeB files) []
  · intro files bad hcsv hread
    have hbad : ∀ acc, folderStepCli acc bad = acc := by
      intro acc
      simp [folderStepCli, hcsv, hread]
    simp only [process_project_folder_cli, isortBy]
    exact foldl_insertBy_skip fileLeB folderStepCli bad hbad (isortBy fileLeB files) []

/-- C3: every produced MonthRecord has the rounded all-rows total
(including rows parsing to zero or negative) while entries keep exactly
the positive-hour rows in file row order, each with its description cell
or the empty string. -/
theorem c3_total_entries (df : Csv) (r : MonthRecord) (dcol : String)
    (hcol : find_duration_column df.headers = some dcol)
    (hproc : processCsv df = some r) :
    r.total = round2 ((df.rows.map
        (fun row => parse_duration_value (getCell df.headers row dcol))).sum) ∧
      r.entries = df.rows.filterMap (fun row =>
        if 0 < parse_duration_value (getCell df.headers row dcol) then
          some (descOf df row, parse_duration_value (getCell df.headers row dcol))
        else Option.none) := by
  unfold processCsv at hproc
  by_cases hlen : df.rows.length = 0
  · rw [if_pos hlen] at hproc
    exact absurd hproc (by simp)
  · rcases r with ⟨rt, re⟩
    rw [if_neg hlen, hcol] at hproc
    simp only [Option.some.injEq, MonthRecord.mk.injEq] at hproc
    obtain ⟨ht, he⟩ := hproc
    constructor
    · rw [← ht, foldl_add_map, zero_add]
    · rw [← he,
        foldl_append_filterMap
          (fun row => 0 < parse_duration_value (getCell df.headers row dcol))
          (fun row => (descOf df row, parse_duration_value (getCell df.headers row dcol)))
          df.rows [],
        List.nil_append]

/-- C3 witness: the invariant at a concrete three-row file containing a
positive, a negative and a zero duration. -/
theorem c3_witness :
    (1 : ℚ) = round2 ((([[Value.str "2"], [Value.str "-1"], [Value.str "0"]]).map
        (fun row => parse_duration_value (getCell ["Duration"] row "Duration"))).sum) ∧
      [(Value.str "", (2 : ℚ))] =
        ([[Value.str "2"], [Value.str "-1"], [Value.str "0"]]).filterMap (fun row =>
          if 0 < parse_duration_value (getCell ["Duration"] row "Duration") then
            some (descOf ⟨["Duration"], [[Value.str "2"], [Value.str "-1"], [Value.str "0"]]⟩
                row,
              parse_duration_value (getCell ["Duration"] row "Duration"))
          else Option.none) :=
  c3_total_entries ⟨["Duration"], [[Value.str "2"], [Value.str "-1"], [Value.str "0"]]⟩
    ⟨1, [(Value.str "", 2)]⟩ "Duration" (by decide) (by decide)

/-- Month blocks end the sheet with the TOTAL row: getLast? of the
assembled row list. -/
theorem getLast?_shape {α : Type} (x a b : α) (l : List α) :
    (x :: (l ++ [a, b])).getLast? = some b := by
  have h : x :: (l ++ [a, b]) = (x :: (l ++ [a])) ++ [b] := by simp
  rw [h, List.getLast?_concat]

/-- C1 counterexample: for the months Feb_2024 (total 5) and Jan_2024
(total 10.5) the built sheet lists the Feb_2024 block strictly before
the Jan_2024 one (both labels are unrecognized and tie at 9999, so the
tie-break is alphabetical), contradicting the claimed calendar order Jan
before Feb. -/
theorem c1_counterexample :
    keyLt (month_sort_key "Feb_2024") (month_sort_key "Jan_2024") = true ∧
      (buildSheetRows [("Feb_2024", ⟨5, []⟩), ("Jan_2024", ⟨10.5, []⟩)]).findIdx?
          (fun row => row = [Value.str "Feb_2024", Value.num 5]) = some 1 ∧
      (buildSheetRows [("Feb_2024", ⟨5, []⟩), ("Jan_2024", ⟨10.5, []⟩)]).findIdx?
          (fun row => row = [Value.str "Jan_2024", Value.num 10.5]) = some 4 := by
  decide

/-- C1 (amended): the built sheet is the header, then the month blocks
in the orderer's sort order (a stable sort of the records by their label
key, totally ordered and a permutation of the input), then a blank row
and a final TOTAL row carrying round2 of the sum of the month totals;
for the months Feb_2024 total 5 and Jan_2024 total 10.5 the orderer
emits Feb_2024 first and the final row is TOTAL 15.5. -/
theorem c1_amended (months : List (String × MonthRecord)) :
    buildSheetRows months =
      [Value.str "Month", Value.str "Total Hours"] ::
        ((sortMonths months).foldr (fun p acc => monthBlock p ++ acc) [] ++
          [[], [Value.str "TOTAL",
            Value.num (round2 ((months.map (fun p => p.2.total)).sum))]]) ∧
      (sortMonths months).Pairwise (fun a b => monthLeB a b = true) ∧
      (sortMonths months).Perm months ∧
      (buildSheetRows months).getLast? =
        some [Value.str "TOTAL",
          Value.num (round2 ((months.map (fun p => p.2.total)).sum))] ∧
      buildSheetRows [("Feb_2024", ⟨5, []⟩), ("Jan_2024", ⟨10.5, []⟩)] =
        [[Value.str "Month", Value.str "Total Hours"],
         [Value.str "Feb_2024", Value.num 5],
         [Value.str "Description", Value.str "Hours"], [],
         [Value.str "Jan_2024", Value.num 10.5],
         [Value.str "Description", Value.str "Hours"], [],
         [], [Value.str "TOTAL", Value.num 15.5]] := by
  have hgrand : grandTotal months = round2 ((months.map (fun p => p.2.total)).sum) := by
    unfold grandTotal
    rw [foldl_add_map, zero_add]
  refine ⟨?_, ?_, ?_, ?_, by decide⟩
  · unfold buildSheetRows
    rw [hgrand]
  · exact pairwise_isortBy monthLeB
      (fun a b => labelLeB_total a.1 b.1) (fun a b c => labelLeB_trans a.1 b.1 c.1) months
  · exact perm_isortBy monthLeB months
  · unfold buildSheetRows
    rw [hgrand]
    exact getLast?_shape _ _ _ _

/-- C9 counterexample: "random" receives key (9999, "random") while
"2024-01" receives (202401, "2024-01"), so "random" sorts first, not
"2024-01" as the claim states. -/
theorem c9_counterexample :
    isortBy labelLeB ["random", "2024-01"] = ["random", "2024-01"] ∧
      month_sort_key "random" = (9999, "random") ∧
      month_sort_key "2024-01" = (202401, "2024-01") ∧
      keyLt (month_sort_key "2024-01") (month_sort_key "random") = false := by
  decide

/-- C9 (amended): the induced label order is total, transitive, and
antisymmetric up to key equality (ties broken by the stripped label
inside the key); March_2024, January_2024, 2024-02 sort to January,
2024-02, March; "random" sorts strictly before "2024-01" because the
unrecognized key constant 9999 is smaller than every yyyymm value; empty
and unrecognized labels receive key (9999, strippedLabel). -/
theorem c9_amended :
    (∀ a b : String, labelLeB a b = true ∨ labelLeB b a = true) ∧
      (∀ a b c : String, labelLeB a b = true → labelLeB b c = true →
        labelLeB a c = true) ∧
      (∀ a b : String, labelLeB a b = true → labelLeB b a = true →
        month_sort_key a = month_sort_key b) ∧
      isortBy labelLeB ["March_2024", "January_2024", "2024-02"] =
        ["January_2024", "2024-02", "March_2024"] ∧
      isortBy labelLeB ["random", "2024-01"] = ["random", "2024-01"] ∧
      keyLt (month_sort_key "random") (month_sort_key "2024-01") = true ∧
      (∀ label : String, ¬ label = "" →
        yyyymmMatch (trimList label.toList) = Option.none →
        firstMonthNum (monthTokens ((trimList label.toList).map Char.toLower)) =
          Option.none →
        month_sort_key label = (9999, ⟨trimList label.toList⟩)) ∧
      month_sort_key "" = (9999, "") := by
  refine ⟨labelLeB_total, labelLeB_trans, ?_, by decide, by decide, by decide, ?_, by decide⟩
  · intro a b h1 h2
    simp only [labelLeB, Bool.not_eq_true'] at h1 h2
    exact keyLt_connex _ _ h2 h1
  · intro label h0 hyy hm
    simp only [month_sort_key, if_neg h0, hyy, hm]

/-- C9 witness: the unrecognized-label clause of the amended statement
evaluated at the concrete label "random". -/
theorem c9_witness : month_sort_key "random" = (9999, "random") :=
  c9_amended.2.2.2.2.2.2.1 "random" (by decide) (by decide) (by decide)

/-- Inserting a fresh key into the normalized-name dict appends it. -/
theorem dictInsert_notmem {β : Type} (d : List (String × β)) (k : String) (v : β)
    (h : ∀ p ∈ d, ¬ p.1 = k) : dictInsert d k v = d ++ [(k, v)] := by
  induction d with
  | nil => rfl
  | cons p rest ih =>
    rcases p with ⟨k0, v0⟩
    have hk : ¬ k0 = k := h (k0, v0) (List.mem_cons_self _ _)
    simp only [dictInsert, if_neg hk, List.cons_append, List.cons.injEq, true_and]
    exact ih (fun q hq => h q (List.mem_cons_of_mem _ hq))

/-- With pairwise-distinct normalized names the dict build is a plain
map over the columns. -/
theorem foldl_dictInsert_eq (cols : List String) :
    ∀ d : List (String × String),
      cols.Pairwise (fun a b => ¬ normalize_col a = normalize_col b) →
      (∀ p ∈ d, ∀ c ∈ cols, ¬ p.1 = normalize_col c) →
      cols.foldl (fun m c => dictInsert m (normalize_col c) c) d =
        d ++ cols.map (fun c => (normalize_col c, c)) := by
  induction cols with
  | nil => intro d _ _; simp
  | cons c cs ih =>
    intro d hp hdisj
    rw [List.pairwise_cons] at hp
    obtain ⟨hc, hcs⟩ := hp
    rw [List.foldl_cons]
    rw [dictInsert_notmem d (normalize_col c) c
      (fun p hpmem => hdisj p hpmem c (List.mem_cons_self _ _))]
    rw [ih (d ++ [(normalize_col c, c)]) hcs (by
      intro p hpmem x hx
      rcases List.mem_append.mp hpmem with hmem | hmem
      · exact hdisj p hmem x (List.mem_cons_of_mem _ hx)
      · have he : p = (normalize_col c, c) := by simpa using hmem
        rw [he]
        exact hc x hx)]
    simp

theorem durNormMap_eq (cols : List String)
    (hd : cols.Pairwise (fun a b => ¬ normalize_col a = normalize_col b)) :
    durNormMap cols = cols.map (fun c => (normalize_col c, c)) := by
  unfold durNormMap
  rw [foldl_dictInsert_eq cols [] hd (by intro p hp x hx; simp at hp)]
  simp

theorem lookup_map_normalize (cols : List String) (k : String) :
    List.lookup k (cols.map (fun c => (normalize_col c, c))) =
      cols.find? (fun c => normalize_col c = k) := by
  induction cols with
  | nil => rfl
  | cons c cs ih =>
    by_cases h : normalize_col c = k
    · have hbeq : (k == normalize_col c) = true := by simp [h]
      simp [List.lookup, List.find?, hbeq, h]
    · have hbeq : (k == normalize_col c) = false := by
        simp only [beq_eq_false_iff_ne, ne_eq]
        exact fun e => h e.symm
      simp [List.lookup, List.find?, hbeq, h, ih]

theorem findSome?_map_pairs {α β γ : Type} (f : α → β) (g : β → Option γ) (l : List α) :
    (l.map f).findSome? g = l.findSome? (fun a => g (f a)) := by
  induction l with
  | nil => rfl
  | cons a t ih =>
    rcases h : g (f a) with _ | b <;> simp [List.findSome?, h, ih]

/-- C5 counterexample: the columns Time and "T i m e" normalize
identically, so the fallback returns the dict value, the later original
name, not the first column in original order that the claim states. -/
theorem c5_counterexample :
    find_duration_column ["Time", "T i m e"] = some "T i m e" ∧
      specFindDuration ["Time", "T i m e"] = some "Time" ∧
      ¬ find_duration_column ["Time", "T i m e"] =
        specFindDuration ["Time", "T i m e"] := by
  decide

/-- C5 (amended): when the normalized column names are pairwise
distinct the sniffer behaves exactly as the claim words it (exact-match
priority, then first original-order duration-like column, else absent);
with duplicated normalized names the dict keeps the last original
column. The concrete examples of the claim resolve as stated. -/
theorem c5_amended :
    (∀ cols : List String,
        cols.Pairwise (fun a b => ¬ normalize_col a = normalize_col b) →
        find_duration_column cols = specFindDuration cols) ∧
      find_duration_column ["Start Date", "Duration (h)", "Description"] =
        some "Duration (h)" ∧
      find_desc_column ["Start Date", "Duration (h)", "Description"] =
        some "Description" ∧
      find_duration_column ["Start Date", "End Date", "Notes"] = Option.none := by
  refine ⟨?_, by decide, by decide, by decide⟩
  intro cols hd
  simp only [find_duration_column, specFindDuration]
  rw [durNormMap_eq cols hd, lookup_map_normalize, lookup_map_normalize,
    lookup_map_normalize, findSome?_map_pairs]

/-- C5 witness: the amended statement at the claim's concrete columns,
whose normalized names are distinct. -/
theorem c5_witness :
    find_duration_column ["Start Date", "Duration (h)", "Description"] =
      specFindDuration ["Start Date", "Duration (h)", "Description"] :=
  c5_amended.1 ["Start Date", "Duration (h)", "Description"] (by decide)

/-! ### Lemmas for the colon branch of the parser: cleaning a string
(strip plus comma-to-dot) changes no digit content of its
colon-separated segments -/

theorem ws_facts (c : Char) (h : c.isWhitespace = true) :
    (decide (c = ':')) = false ∧ c.isDigit = false := by
  simp only [Char.isWhitespace, Bool.or_eq_true, decide_eq_true_eq] at h
  rcases h with ((h | h) | h) | h <;> subst h <;> exact ⟨by decide, by decide⟩

theorem commaToDot_colon (c : Char) : (decide (commaToDot c = ':')) = (decide (c = ':')) := by
  by_cases h : c = ','
  · subst h
    decide
  · simp [commaToDot, h]

theorem commaToDot_digit (c : Char) : (commaToDot c).isDigit = c.isDigit := by
  by_cases h : c = ','
  · subst h
    decide
  · simp [commaToDot, h]

theorem commaToDot_of_digit (c : Char) (h : c.isDigit = true) : commaToDot c = c := by
  by_cases hc : c = ','
  · subst hc
    simp at h
  · simp [commaToDot, hc]

theorem splitOnPred_cons (P : Char → Bool) (c : Char) (rest : List Char) :
    splitOnPred P (c :: rest) =
      (match splitOnPred P rest with
       | [] => [[]]
       | h :: t => if P c then [] :: h :: t else (c :: h) :: t) := rfl

theorem splitOnPred_ne_nil (P : Char → Bool) : ∀ l : List Char, ¬ splitOnPred P l = []
  | [] => by simp [splitOnPred]
  | c :: rest => by
    simp only [splitOnPred]
    rcases h : splitOnPred P rest with _ | ⟨hh, tt⟩
    · simp
    · by_cases hc : P c = true <;> simp [hc]

theorem splitOnPred_map (P : Char → Bool) (f : Char → Char) (hf : ∀ c, P (f c) = P c) :
    ∀ l : List Char, splitOnPred P (l.map f) = (splitOnPred P l).map (List.map f)
  | [] => by simp [splitOnPred]
  | c :: rest => by
    have ih := splitOnPred_map P f hf rest
    rcases h : splitOnPred P rest with _ | ⟨hh, tt⟩
    · exact absurd h (splitOnPred_ne_nil _ _)
    · rw [h] at ih
      simp only [List.map_cons, splitOnPred, ih, h]
      by_cases hc : P c = true
      · simp [hf c, hc]
      · simp only [Bool.not_eq_true] at hc
        simp [hf c, hc]

theorem digitsOnly_map_commaToDot (l : List Char) :
    digitsOnly (l.map commaToDot) = digitsOnly l := by
  induction l with
  | nil => rfl
  | cons c t ih =>
    simp only [digitsOnly, List.map_cons, List.filter_cons] at ih ⊢
    rw [commaToDot_digit c]
    by_cases h : c.isDigit = true
    · rw [if_pos (by rw [h]), if_pos (by rw [h]), commaToDot_of_digit c h, ih]
    · simp only [Bool.not_eq_true] at h
      rw [if_neg (by rw [h]; simp), if_neg (by rw [h]; simp), ih]

theorem splitOnPred_all_neg (P : Char → Bool) (l : List Char)
    (h : ∀ c ∈ l, P c = false) : splitOnPred P l = [l] := by
  induction l with
  | nil => rfl
  | cons c t ih =>
    simp only [splitOnPred, ih (fun x hx => h x (List.mem_cons_of_mem _ hx))]
    rw [h c (List.mem_cons_self _ _)]
    simp

theorem split_digits_dropWhile (P : Char → Bool)
    (hP : ∀ c, c.isWhitespace = true → P c = false ∧ c.isDigit = false) :
    ∀ l : List Char,
      (splitOnPred P (l.dropWhile Char.isWhitespace)).map digitsOnly =
        (splitOnPred P l).map digitsOnly
  | [] => rfl
  | c :: rest => by
    by_cases hw : c.isWhitespace = true
    · have ih := split_digits_dropWhile P hP rest
      obtain ⟨hp, hd⟩ := hP c hw
      rw [List.dropWhile_cons_of_pos hw, ih]
      rcases h : splitOnPred P rest with _ | ⟨hh, tt⟩
      · exact absurd h (splitOnPred_ne_nil _ _)
      · simp only [splitOnPred, h, hp, Bool.false_eq_true, if_false, List.map_cons,
          digitsOnly, List.filter_cons, hd]
    · simp only [Bool.not_eq_true] at hw
      rw [List.dropWhile_cons_of_neg (by rw [hw]; simp)]

theorem split_digits_append_ws (P : Char → Bool)
    (hP : ∀ c, c.isWhitespace = true → P c = false ∧ c.isDigit = false)
    (w : List Char) (hw : ∀ c ∈ w, c.isWhitespace = true) :
    ∀ l : List Char,
      (splitOnPred P (l ++ w)).map digitsOnly = (splitOnPred P l).map digitsOnly
  | [] => by
    rw [List.nil_append, splitOnPred_all_neg P w (fun c hc => (hP c (hw c hc)).1)]
    have hwd : digitsOnly w = [] := by
      simp only [digitsOnly, List.filter_eq_nil_iff]
      intro c hc
      rw [(hP c (hw c hc)).2]
      simp
    show List.map digitsOnly [w] = List.map digitsOnly [[]]
    simp only [List.map_cons, List.map_nil, hwd]
    rfl
  | c :: rest => by
    have ih := split_digits_append_ws P hP w hw rest
    rcases h1 : splitOnPred P (rest ++ w) with _ | ⟨h1h, h1t⟩
    · exact absurd h1 (splitOnPred_ne_nil _ _)
    rcases h2 : splitOnPred P rest with _ | ⟨h2h, h2t⟩
    · exact absurd h2 (splitOnPred_ne_nil _ _)
    rw [h1, h2] at ih
    simp only [List.map_cons, List.cons.injEq] at ih
    obtain ⟨ihh, iht⟩ := ih
    rw [List.cons_append, splitOnPred_cons, splitOnPred_cons, h1, h2]
    dsimp only
    by_cases hc : P c = true
    · rw [if_pos hc, if_pos hc]
      simp only [List.map_cons]
      rw [ihh, iht]
    · rw [if_neg hc, if_neg hc]
      simp only [List.map_cons]
      have hd : digitsOnly (c :: h1h) = digitsOnly (c :: h2h) := by
        simp only [digitsOnly, List.filter_cons]
        by_cases hcd : c.isDigit = true
        · rw [if_pos hcd, if_pos hcd]
          exact congrArg (List.cons c) ihh
        · rw [if_neg hcd, if_neg hcd]
          exact ihh
      rw [hd, iht]

theorem trim_decomp (l : List Char) :
    ∃ w : List Char, (∀ c ∈ w, c.isWhitespace = true) ∧
      l.dropWhile Char.isWhitespace = trimList l ++ w := by
  refine ⟨((l.dropWhile Char.isWhitespace).reverse.takeWhile Char.isWhitespace).reverse,
    ?_, ?_⟩
  · intro c hc
    rw [List.mem_reverse] at hc
    exact List.mem_takeWhile_imp hc
  · conv_lhs => rw [← List.reverse_reverse (l.dropWhile Char.isWhitespace),
      ← List.takeWhile_append_dropWhile (p := Char.isWhitespace)
        (l := (l.dropWhile Char.isWhitespace).reverse)]
    rw [List.reverse_append]
    rfl

theorem digitsOnly_dropWhile_ws : ∀ l : List Char,
    digitsOnly (l.dropWhile Char.isWhitespace) = digitsOnly l
  | [] => rfl
  | c :: t => by
    by_cases h : c.isWhitespace = true
    · rw [List.dropWhile_cons_of_pos h, digitsOnly_dropWhile_ws t]
      simp only [digitsOnly, List.filter_cons, (ws_facts c h).2]
      simp
    · simp only [Bool.not_eq_true] at h
      rw [List.dropWhile_cons_of_neg (by rw [h]; simp)]

theorem digitsOnly_trim (p : List Char) : digitsOnly (trimList p) = digitsOnly p := by
  obtain ⟨w, hw, hdec⟩ := trim_decomp p
  have h2 : digitsOnly (trimList p ++ w) = digitsOnly (trimList p) := by
    have hwd : List.filter Char.isDigit w = [] := by
      simp only [List.filter_eq_nil_iff]
      intro c hc
      rw [(ws_facts c (hw c hc)).2]
      simp
    simp [digitsOnly, List.filter_append, hwd]
  rw [← digitsOnly_dropWhile_ws p, hdec, h2]

theorem mem_trim_of_not_ws (l : List Char) (c : Char) (hc : c.isWhitespace = false)
    (h : c ∈ l) : c ∈ trimList l := by
  obtain ⟨w, hw, hdec⟩ := trim_decomp l
  have h1 : c ∈ l.dropWhile Char.isWhitespace := by
    rw [← List.takeWhile_append_dropWhile (p := Char.isWhitespace) (l := l)] at h
    rcases List.mem_append.mp h with h2 | h2
    · have := List.mem_takeWhile_imp h2
      rw [hc] at this
      exact absurd this (by simp)
    · exact h2
  rw [hdec] at h1
  rcases List.mem_append.mp h1 with h2 | h2
  · exact h2
  · have := hw c h2
    rw [hc] at this
    exact absurd this (by simp)

theorem colon_mem_clean (s : String) (h : ':' ∈ s.toList) : ':' ∈ cleanStr s := by
  have h1 : ':' ∈ trimList s.toList := mem_trim_of_not_ws _ _ (by decide) h
  unfold cleanStr
  rw [List.mem_map]
  exact ⟨':', h1, by decide⟩

theorem isDecimalBody_mem (r : List Char) (h : isDecimalBody r = true) :
    ∀ c ∈ r, c.isDigit = true ∨ c = '.' := by
  intro c hc
  simp only [isDecimalBody, Bool.and_eq_true, Bool.not_eq_true', Bool.or_eq_true] at h
  obtain ⟨hip, hrest⟩ := h
  rw [← List.takeWhile_append_dropWhile (p := Char.isDigit) (l := r)] at hc
  rcases List.mem_append.mp hc with h1 | h1
  · left
    exact List.mem_takeWhile_imp h1
  · rcases hcase : r.dropWhile Char.isDigit with _ | ⟨c0, f⟩
    · rw [hcase] at h1
      simp at h1
    · rw [hcase] at hrest h1
      rcases hrest with he | hm
      · simp at he
      · by_cases hc0 : c0 = '.'
        · subst hc0
          simp only [Bool.and_eq_true, Bool.not_eq_true', List.all_eq_true] at hm
          obtain ⟨_, hf2⟩ := hm
          rcases List.mem_cons.mp h1 with rfl | hmem
          · right; rfl
          · left; exact hf2 c hmem
        · exfalso
          simp [hc0] at hm

theorem isDecimalLit_chars : ∀ l : List Char, isDecimalLit l = true →
    ∀ c ∈ l, c.isDigit = true ∨ c = '.' ∨ c = '+' ∨ c = '-'
  | [] => by
    intro h c hc
    simp at hc
  | c0 :: r => by
    intro h c hc
    by_cases h1 : c0 = '+'
    · subst h1
      rw [show isDecimalLit ('+' :: r) = isDecimalBody r from rfl] at h
      rcases List.mem_cons.mp hc with rfl | hm
      · tauto
      · rcases isDecimalBody_mem r h c hm with hd | hd <;> tauto
    · by_cases h2 : c0 = '-'
      · subst h2
        rw [show isDecimalLit ('-' :: r) = isDecimalBody r from rfl] at h
        rcases List.mem_cons.mp hc with rfl | hm
        · tauto
        · rcases isDecimalBody_mem r h c hm with hd | hd <;> tauto
      · have he : isDecimalLit (c0 :: r) = isDecimalBody (c0 :: r) := by
          simp [isDecimalLit, h1, h2]
        rw [he] at h
        rcases isDecimalBody_mem _ h c hc with hd | hd <;> tauto

theorem isDecimalLit_no_colon (l : List Char) (hmem : ':' ∈ l) :
    isDecimalLit l = false := by
  by_contra hne
  have hlit : isDecimalLit l = true := by simpa using hne
  rcases isDecimalLit_chars l hlit ':' hmem with h | h | h | h <;> revert h <;> decide

theorem split_digits_clean (s : String) :
    ((splitOnPred (fun c => decide (c = ':')) (cleanStr s)).map digitsOnly) =
      ((splitOnPred (fun c => decide (c = ':')) s.toList).map digitsOnly) := by
  have hP : ∀ c : Char, c.isWhitespace = true →
      (decide (c = ':')) = false ∧ c.isDigit = false := ws_facts
  obtain ⟨w, hw, hdec⟩ := trim_decomp s.toList
  calc (splitOnPred (fun c => decide (c = ':')) (cleanStr s)).map digitsOnly
      = ((splitOnPred (fun c => decide (c = ':')) (trimList s.toList)).map
          (List.map commaToDot)).map digitsOnly := by
        rw [cleanStr, splitOnPred_map _ commaToDot commaToDot_colon]
    _ = (splitOnPred (fun c => decide (c = ':')) (trimList s.toList)).map digitsOnly := by
        rw [List.map_map]
        exact List.map_congr_left (fun p _ => digitsOnly_map_commaToDot p)
    _ = (splitOnPred (fun c => decide (c = ':')) (trimList s.toList ++ w)).map
          digitsOnly := (split_digits_append_ws _ hP w hw _).symm
    _ = (splitOnPred (fun c => decide (c = ':'))
          (s.toList.dropWhile Char.isWhitespace)).map digitsOnly := by rw [hdec]
    _ = (splitOnPred (fun c => decide (c = ':')) s.toList).map digitsOnly :=
        split_digits_dropWhile _ hP s.toList

/-- C2: the seven concrete parser examples of the spec hold, numeric
input is returned as is, and every string containing a colon parses to
the hh:mm[:ss] value computed from the first three colon segments of the
raw string with non-digits stripped. -/
theorem c2_parser_spec :
    parse_duration_value (Value.str "90") = 90 ∧
      parse_duration_value (Value.str "1,5") = 1.5 ∧
      parse_duration_value (Value.str "02:30") = 2.5 ∧
      parse_duration_value (Value.str "01:30:00") = 1.5 ∧
      parse_duration_value (Value.str "") = 0 ∧
      parse_duration_value Value.none = 0 ∧
      parse_duration_value (Value.str "garbage") = 0 ∧
      (∀ q : ℚ, parse_duration_value (Value.num q) = q) ∧
      (∀ s : String, ':' ∈ s.toList →
        parse_duration_value (Value.str s) = specColonValue s) := by
  refine ⟨by decide, by decide, by decide, by decide, by decide, by decide, by decide,
    fun q => rfl, ?_⟩
  intro s hcolon
  have hmem : ':' ∈ cleanStr s := colon_mem_clean s hcolon
  have hdec : isDecimalLit (cleanStr s) = false := isDecimalLit_no_colon _ hmem
  have hcont : (cleanStr s).contains ':' = true := by
    simp only [List.contains, List.elem_eq_mem, decide_eq_true_eq]
    exact hmem
  simp only [parse_duration_value]
  rw [if_neg (by rw [hdec]; exact Bool.false_ne_true),
    if_pos hcont]
  unfold specColonValue
  congr 1
  calc ((splitOnPred (fun c => decide (c = ':')) (cleanStr s)).take 3).map
        (fun p => natOfDigits (digitsOnly (trimList p)))
      = ((splitOnPred (fun c => decide (c = ':')) (cleanStr s)).take 3).map
          (fun p => natOfDigits (digitsOnly p)) :=
        List.map_congr_left (fun p _ => by rw [digitsOnly_trim])
    _ = (((splitOnPred (fun c => decide (c = ':')) (cleanStr s)).map digitsOnly).take
          3).map natOfDigits := by
        rw [← List.map_take, List.map_map]
        rfl
    _ = (((splitOnPred (fun c => decide (c = ':')) s.toList).map digitsOnly).take
          3).map natOfDigits := by rw [split_digits_clean]
    _ = ((splitOnPred (fun c => decide (c = ':')) s.toList).take 3).map
          (fun p => natOfDigits (digitsOnly p)) := by
        rw [← List.map_take, List.map_map]
        rfl

/-- C2 witness: the colon clause evaluated at the concrete four-segment
input "1:2:3:4", whose fourth segment is discarded. -/
theorem c2_witness :
    parse_duration_value (Value.str "1:2:3:4") = specColonValue "1:2:3:4" :=
  c2_parser_spec.2.2.2.2.2.2.2.2 "1:2:3:4" (by decide)

/-- C7 witness: the amended statement at concrete inputs: the fallback
read result, and a twice-unreadable file dropping out of a one-file
folder in both variants. -/
theorem c7_witness :
    appRead ⟨Option.none, some ⟨["Duration"], [[Value.str "1"]]⟩⟩ =
        some ⟨["Duration"], [[Value.str "1"]]⟩ ∧
      process_project_folder [("Feb.csv", ⟨Option.none, Option.none⟩)] =
          process_project_folder [] ∧
        process_project_folder_cli [("Feb.csv", ⟨Option.none, Option.none⟩)] =
          process_project_folder_cli [] :=
  ⟨c7_amended.1 ⟨Option.none, some ⟨["Duration"], [[Value.str "1"]]⟩⟩
      ⟨["Duration"], [[Value.str "1"]]⟩ rfl rfl,
    c7_amended.2.1 [] ("Feb.csv", ⟨Option.none, Option.none⟩) (by decide) rfl,
    c7_amended.2.2 [] ("Feb.csv", ⟨Option.none, Option.none⟩) (by decide) rfl⟩

end Clockify
